import Mathlib

/-!
Verification of the gita multi-repository manager against its design
specification.  The repository consists of `gita/__main__.py` (argument
parsing and the `f_*` command handlers) and `tests/test_utils.py`; the
`gita/utils.py` module itself is not part of the sources at hand, so the
registry, inspector, aggregator and dispatcher operations are modelled
from the specification (and, where the unit tests pin concrete observable
behaviour, consistently with those tests).

Paths are modelled as their list of `/`-separated segments with the
leading root separator omitted: `/a/bcd/repo1` is `["a", "bcd", "repo1"]`.
Registry names are likewise segment lists (a suffix of the path's
segments), rendered by joining with `/`.
-/

set_option autoImplicit false

namespace Gita

/-- A filesystem path: its `/`-separated segments, leading root omitted. -/
abbrev FsPath := List String

/-- A registry name: a nonempty suffix of a path's segments. -/
abbrev RName := List String

/-- Modelled from the spec: the candidate names the Registry loader tries for
one path, shortest first.  Missing code: the name-derivation part of
`utils.get_repos`.  Per §4.1 the loader "derives a default name from its final
path segment" and "resolves naming collisions deterministically by walking up
the path to find the shortest unique disambiguating suffix, joined with a path
separator".  The candidates are therefore the nonempty suffixes of the
segment list, from the bare final segment up to the whole path. -/
def nameCandidates (p : FsPath) : List RName :=
  (p.tails.filter (fun s => !s.isEmpty)).reverse

/-- Modelled from the spec: pick the shortest candidate name of `p` that is
not already taken; `none` when every suffix of `p` is taken (a case §4.1
leaves undescribed beyond "collisions never cause silent overwrite", so the
model assigns no name rather than overwrite). -/
def resolveName (taken : List RName) (p : FsPath) : Option RName :=
  (nameCandidates p).find? (fun n => decide (n ∉ taken))

/-- Loader loop: process the persisted paths in order, assigning each the
shortest not-yet-taken suffix name; an entry whose every suffix is taken is
skipped (never silently overwriting an earlier entry). -/
def getReposAux (acc : List (RName × FsPath)) : List FsPath → List (RName × FsPath)
  | [] => acc
  | p :: rest =>
    match resolveName (acc.map Prod.fst) p with
    | some n => getReposAux (acc ++ [(n, p)]) rest
    | none => getReposAux acc rest

/-- Modelled from the spec: `utils.get_repos`, the Registry `load()` of §4.1
(missing from the sources; its observable behaviour is pinned by
`test_get_repos`).  Reads the ordered persisted path list and returns the
ordered name-to-path mapping, names resolved per `resolveName`. -/
def get_repos (paths : List FsPath) : List (RName × FsPath) :=
  getReposAux [] paths

/-- Sanity: the collision fixture of `test_get_repos` (`PATH_FNAME_CLASH`):
two repos named `repo1` at `/a/bcd/repo1` and `/root/x/repo1` load as
`repo1` and `x/repo1`, and `repo2` is untouched. -/
theorem get_repos_clash_fixture :
    get_repos [["a", "bcd", "repo1"], ["e", "fgh", "repo2"], ["root", "x", "repo1"]] =
      [(["repo1"], ["a", "bcd", "repo1"]),
       (["repo2"], ["e", "fgh", "repo2"]),
       (["x", "repo1"], ["root", "x", "repo1"])] := by
  decide

theorem mem_nameCandidates {p : FsPath} {n : RName} :
    n ∈ nameCandidates p ↔ (n <:+ p ∧ n ≠ []) := by
  simp only [nameCandidates, List.mem_reverse, List.mem_filter, List.mem_tails,
    Bool.not_eq_true', List.isEmpty_iff, List.isEmpty_eq_false]

theorem self_mem_nameCandidates {p : FsPath} (hp : p ≠ []) :
    p ∈ nameCandidates p :=
  mem_nameCandidates.mpr ⟨List.suffix_refl p, hp⟩

theorem resolveName_isSome {taken : List RName} {p : FsPath}
    (hp : p ≠ []) (hfree : p ∉ taken) : (resolveName taken p).isSome := by
  rcases h : resolveName taken p with _ | n
  · exfalso
    have := List.find?_eq_none.mp h p (self_mem_nameCandidates hp)
    simp at this
    exact hfree this
  · rfl

theorem resolveName_not_taken {taken : List RName} {p : FsPath} {n : RName}
    (h : resolveName taken p = some n) : n ∉ taken := by
  have := List.find?_some h
  simpa using this

theorem resolveName_mem {taken : List RName} {p : FsPath} {n : RName}
    (h : resolveName taken p = some n) : n <:+ p ∧ n ≠ [] :=
  mem_nameCandidates.mp (List.mem_of_find?_eq_some h)

theorem getReposAux_keys_nodup (paths : List FsPath) :
    ∀ acc : List (RName × FsPath), (acc.map Prod.fst).Nodup →
      ((getReposAux acc paths).map Prod.fst).Nodup := by
  induction paths with
  | nil => intro acc h; exact h
  | cons p rest ih =>
    intro acc h
    simp only [getReposAux]
    cases hr : resolveName (acc.map Prod.fst) p with
    | none => exact ih acc h
    | some n =>
      apply ih
      have hn := resolveName_not_taken hr
      simp [List.nodup_append, h, hn]

theorem getReposAux_mem_prop (paths : List FsPath) :
    ∀ acc, (∀ e ∈ acc, Prod.fst e <:+ Prod.snd e ∧ Prod.fst e ≠ []) →
      ∀ e ∈ getReposAux acc paths, Prod.fst e <:+ Prod.snd e ∧ Prod.fst e ≠ [] := by
  induction paths with
  | nil => intro acc h; exact h
  | cons p rest ih =>
    intro acc h
    simp only [getReposAux]
    cases hr : resolveName (acc.map Prod.fst) p with
    | none => exact ih acc h
    | some n =>
      apply ih
      intro e he
      rcases List.mem_append.mp he with h1 | h2
      · exact h e h1
      · have : e = (n, p) := by simpa using h2
        subst this
        exact resolveName_mem hr

theorem getReposAux_map_snd (paths : List FsPath) :
    ∀ acc, (∀ e ∈ acc, Prod.fst e <:+ Prod.snd e) →
      (∀ p ∈ paths, p ≠ []) →
      paths.Nodup →
      (∀ p ∈ paths, p ∉ acc.map Prod.snd) →
      (∀ p ∈ paths, ∀ q, (q ∈ acc.map Prod.snd ∨ q ∈ paths) → p <:+ q → p = q) →
      (getReposAux acc paths).map Prod.snd = acc.map Prod.snd ++ paths := by
  induction paths with
  | nil => intro acc _ _ _ _ _; simp [getReposAux]
  | cons p rest ih =>
    intro acc hinv hne hnd hdisj hsuf
    simp only [getReposAux]
    have hfree : p ∉ acc.map Prod.fst := by
      intro hmem
      rcases List.mem_map.mp hmem with ⟨e, he, heq⟩
      have hsf : p <:+ e.2 := heq ▸ hinv e he
      have hpe : p = e.2 :=
        hsuf p (by simp) e.2 (Or.inl (List.mem_map_of_mem Prod.snd he)) hsf
      exact hdisj p (by simp) (hpe ▸ List.mem_map_of_mem Prod.snd he)
    have hsome := resolveName_isSome (hne p (by simp)) hfree
    cases hr : resolveName (acc.map Prod.fst) p with
    | none => rw [hr] at hsome; simp at hsome
    | some n =>
      have hnp := resolveName_mem hr
      have step := ih (acc ++ [(n, p)])
        (by
          intro e he
          rcases List.mem_append.mp he with h1 | h2
          · exact hinv e h1
          · have : e = (n, p) := by simpa using h2
            subst this
            exact hnp.1)
        (fun r hr2 => hne r (by simp [hr2]))
        (List.Nodup.of_cons hnd)
        (by
          intro r hr2
          simp only [List.map_append, List.mem_append]
          rintro (h1 | h2)
          · exact hdisj r (by simp [hr2]) h1
          · have : r = p := by simpa using h2
            subst this
            exact (List.nodup_cons.mp hnd).1 hr2
          )
        (by
          intro r hr2 q hq hsf
          apply hsuf r (by simp [hr2]) q _ hsf
          rcases hq with h1 | h2
          · simp only [List.map_append, List.mem_append] at h1
            rcases h1 with h1a | h1b
            · exact Or.inl h1a
            · have : q = p := by simpa using h1b
              subst this
              exact Or.inr (by simp)
          · exact Or.inr (by simp [h2])
          )
      rw [step]
      simp

theorem assoc_nodup_key_inj {l : List (RName × FsPath)} (h : (l.map Prod.fst).Nodup)
    {k : RName} {a b : FsPath} (ha : (k, a) ∈ l) (hb : (k, b) ∈ l) : a = b := by
  induction l with
  | nil => cases ha
  | cons e rest ih =>
    obtain ⟨ek, ev⟩ := e
    simp only [List.map_cons, List.nodup_cons] at h
    rcases List.mem_cons.mp ha with ha1 | ha2 <;> rcases List.mem_cons.mp hb with hb1 | hb2
    · exact congrArg Prod.snd (ha1.trans hb1.symm)
    · exfalso
      injection ha1 with hk _
      apply h.1
      rw [← hk]
      exact List.mem_map_of_mem Prod.fst hb2
    · exfalso
      injection hb1 with hk _
      apply h.1
      rw [← hk]
      exact List.mem_map_of_mem Prod.fst ha2
    · exact ih h.2 ha2 hb2

theorem suffix_singleton_getLast {p : FsPath} {a : String} (h : [a] <:+ p) :
    p.getLast? = some a := by
  rcases h with ⟨t, rfl⟩
  simp

/-- C4: for every loaded registry the repository names are unique; and when
two distinct registered paths share the same final path segment, both entries
appear in the registry, under distinct names of which at least one is longer
and parent-qualified (two or more segments), and neither entry's path is lost.
Stated for registries whose persisted paths are nonempty, pairwise distinct
and pairwise non-suffix-nested — the regime in which the spec's
shortest-unique-suffix disambiguation contract (§4.1) is well defined. -/
theorem claim_C4 (paths : List FsPath)
    (hne : ∀ p ∈ paths, p ≠ [])
    (hnd : paths.Nodup)
    (hsuf : ∀ p ∈ paths, ∀ q ∈ paths, p <:+ q → p = q) :
    ((get_repos paths).map Prod.fst).Nodup ∧
    ∀ p ∈ paths, ∀ q ∈ paths, p ≠ q → p.getLast? = q.getLast? →
      ∃ np nq, (np, p) ∈ get_repos paths ∧ (nq, q) ∈ get_repos paths ∧
        np ≠ nq ∧ (2 ≤ np.length ∨ 2 ≤ nq.length) := by
  have hkeys : ((get_repos paths).map Prod.fst).Nodup :=
    getReposAux_keys_nodup paths [] (by simp)
  have hvals : (get_repos paths).map Prod.snd = paths := by
    have := getReposAux_map_snd paths [] (by simp) hne hnd (by simp)
      (by intro r hr2 q hq hsf
          exact hsuf r hr2 q (by simpa using hq) hsf)
    simpa [get_repos] using this
  refine ⟨hkeys, ?_⟩
  intro p hp q hq hpq hlast
  have hpmem : p ∈ (get_repos paths).map Prod.snd := by rw [hvals]; exact hp
  have hqmem : q ∈ (get_repos paths).map Prod.snd := by rw [hvals]; exact hq
  rcases List.mem_map.mp hpmem with ⟨ep, hep, heqp⟩
  rcases List.mem_map.mp hqmem with ⟨eq', heq, heqq⟩
  have hepm : (ep.1, p) ∈ get_repos paths := by
    rw [← heqp]; exact hep
  have heqm : (eq'.1, q) ∈ get_repos paths := by
    rw [← heqq]; exact heq
  have hprop := getReposAux_mem_prop paths [] (by simp)
  have hpprop := hprop (ep.1, p) hepm
  have hqprop := hprop (eq'.1, q) heqm
  refine ⟨ep.1, eq'.1, hepm, heqm, ?_, ?_⟩
  · intro hne2
    apply hpq
    exact assoc_nodup_key_inj hkeys hepm (hne2 ▸ heqm)
  · by_contra hcon
    push_neg at hcon
    have hl1 : ep.1.length = 1 := by
      have h0 : ep.1.length ≠ 0 := by
        simpa [List.length_eq_zero] using hpprop.2
      omega
    have hl2 : eq'.1.length = 1 := by
      have h0 : eq'.1.length ≠ 0 := by
        simpa [List.length_eq_zero] using hqprop.2
      omega
    rcases List.length_eq_one.mp hl1 with ⟨a, hae⟩
    rcases List.length_eq_one.mp hl2 with ⟨b, hbe⟩
    have hpa : p.getLast? = some a := suffix_singleton_getLast (hae ▸ hpprop.1)
    have hqb : q.getLast? = some b := suffix_singleton_getLast (hbe ▸ hqprop.1)
    have hab : a = b := by
      rw [hpa, hqb] at hlast
      exact Option.some.inj hlast
    apply hpq
    have hkey : ep.1 = eq'.1 := by rw [hae, hbe, hab]
    rw [← hkey] at heqm
    exact assoc_nodup_key_inj hkeys hepm heqm

/-- The `PATH_FNAME_CLASH` fixture of `test_get_repos`: two repositories whose
paths share the final segment `repo1`. -/
def clashPaths : List FsPath :=
  [["a", "bcd", "repo1"], ["e", "fgh", "repo2"], ["root", "x", "repo1"]]

/-- Witness for C4 at the `PATH_FNAME_CLASH` fixture. -/
theorem claim_C4_witness :
    ((∀ p ∈ clashPaths, p ≠ []) ∧ clashPaths.Nodup ∧
      (∀ p ∈ clashPaths, ∀ q ∈ clashPaths, p <:+ q → p = q)) ∧
    (((get_repos clashPaths).map Prod.fst).Nodup ∧
      ∀ p ∈ clashPaths, ∀ q ∈ clashPaths, p ≠ q → p.getLast? = q.getLast? →
        ∃ np nq, (np, p) ∈ get_repos clashPaths ∧ (nq, q) ∈ get_repos clashPaths ∧
          np ≠ nq ∧ (2 ≤ np.length ∨ 2 ≤ nq.length)) :=
  ⟨⟨by decide, by decide, by decide⟩,
    claim_C4 clashPaths (by decide) (by decide) (by decide)⟩

/-! ## Registry `add` (C5, C7)

`utils.add_repos` is missing from the sources; it is modelled from §4.1 of the
spec, consistently with the write observed by `test_add_repos` (a single
`open(<config path>, 'w')` followed by one `write` of the delimiter-joined
list). -/

/-- Modelled from the spec: path normalization performed by `add`
("normalizes to absolute, trailing-separator-stripped form").  On the segment
model, stripping trailing separators removes trailing empty segments; inputs
are assumed already absolute. -/
def normalizePath (p : FsPath) : FsPath :=
  (p.reverse.dropWhile (fun s => s.isEmpty)).reverse

/-- Modelled from the spec: the new paths an `add` call actually registers —
inputs that are existing version-controlled directories (per the `isGit`
check), normalized, with paths already present and duplicates silently
dropped.  Missing code: the filtering part of `utils.add_repos`. -/
def newPaths (isGit : FsPath → Bool) (existing inputs : List FsPath) : List FsPath :=
  (((inputs.filter isGit).map normalizePath).filter (fun p => decide (p ∉ existing))).dedup

/-- Modelled from the spec: `utils.add_repos` (§4.1 `add`), acting on the
persisted path list; when nothing new is found the persisted list is left
untouched, otherwise the new paths are appended and the list rewritten. -/
def add_repos (isGit : FsPath → Bool) (existing inputs : List FsPath) : List FsPath :=
  if (newPaths isGit existing inputs).isEmpty then existing
  else existing ++ newPaths isGit existing inputs

/-- Rendering of a path back to its absolute string form. -/
def renderFsPath (p : FsPath) : String :=
  "/" ++ String.intercalate "/" p

/-- The persisted file's content: the `os.pathsep`-joined list of paths, as
asserted by `test_add_repos`. -/
def writeContent (paths : List FsPath) : String :=
  String.intercalate ":" (paths.map renderFsPath)

/-- C5: adding a path that is already present in the persisted registry (after
normalization) leaves both the persisted path list and the persisted file
content unchanged. -/
theorem claim_C5 (isGit : FsPath → Bool) (existing : List FsPath) (p : FsPath)
    (hp : normalizePath p ∈ existing) :
    add_repos isGit existing [p] = existing ∧
    writeContent (add_repos isGit existing [p]) = writeContent existing := by
  have hnew : newPaths isGit existing [p] = [] := by
    unfold newPaths
    cases hg : isGit p <;> simp [List.filter, hg, hp]
  constructor
  · simp [add_repos, hnew]
  · simp [add_repos, hnew]

/-- Witness for C5: re-adding the already-registered `/nos/repo` (with a
trailing separator, as in `test_add_repos`) is a no-op. -/
theorem claim_C5_witness :
    normalizePath ["nos", "repo", ""] ∈ [["home", "some", "repo1"], ["nos", "repo"]] ∧
    (add_repos (fun _ => true) [["home", "some", "repo1"], ["nos", "repo"]]
        [["nos", "repo", ""]] = [["home", "some", "repo1"], ["nos", "repo"]] ∧
      writeContent (add_repos (fun _ => true)
          [["home", "some", "repo1"], ["nos", "repo"]] [["nos", "repo", ""]]) =
        writeContent [["home", "some", "repo1"], ["nos", "repo"]]) :=
  ⟨by decide,
    claim_C5 (fun _ => true) [["home", "some", "repo1"], ["nos", "repo"]]
      ["nos", "repo", ""] (by decide)⟩

/-- An observable file-system operation performed while persisting the
registry. -/
inductive FileOp where
  | openW (path : String)
  | write (data : String)
  | replace (src dst : String)
deriving DecidableEq

/-- The well-known location of the persisted path list, as asserted by
`test_add_repos` (with `XDG_CONFIG_HOME=/config`). -/
def repoPathFile : String := "/config/gita/repo_path"

/-- The file operations performed by one `add` call, as pinned by
`test_add_repos`: nothing when there is no new path, otherwise a single
truncating open of the persisted file itself followed by one write of the
joined list (`mock_file.assert_called_with('/config/gita/repo_path', 'w')`,
`handle.write.assert_called_once_with(expected)`). -/
def add_repos_trace (isGit : FsPath → Bool) (existing inputs : List FsPath) :
    List FileOp :=
  if (newPaths isGit existing inputs).isEmpty then []
  else [FileOp.openW repoPathFile,
        FileOp.write (writeContent (existing ++ newPaths isGit existing inputs))]

/-- Whether a trace exhibits the write-to-temporary-then-replace pattern for
`target`: some distinct temporary file is opened for writing and then replaces
`target`. -/
def usesTempReplace (trace : List FileOp) (target : String) : Bool :=
  trace.any (fun op =>
    match op with
    | FileOp.replace src dst =>
        dst == target && src != target && trace.contains (FileOp.openW src)
    | _ => false)

/-- C7 as stated is false: adding a fresh path writes to the persisted file,
yet the trace opens the persisted file itself in truncating mode and contains
no temporary-file replacement. -/
theorem claim_C7_counterexample :
    add_repos_trace (fun _ => true) [] [["a"]] ≠ [] ∧
    usesTempReplace (add_repos_trace (fun _ => true) [] [["a"]]) repoPathFile = false := by
  decide

/-- C7 amended: `add` never uses a temporary-file-and-replace write; whenever
there are new paths it rewrites the persisted list by opening the persisted
file itself in truncating write mode and writing the joined list in place, so
a partial failure during that write can corrupt the file. -/
theorem claim_C7_amended (isGit : FsPath → Bool) (existing inputs : List FsPath) :
    usesTempReplace (add_repos_trace isGit existing inputs) repoPathFile = false ∧
    ((newPaths isGit existing inputs).isEmpty = false →
      add_repos_trace isGit existing inputs =
        [FileOp.openW repoPathFile,
         FileOp.write (writeContent (existing ++ newPaths isGit existing inputs))]) := by
  constructor
  · unfold add_repos_trace
    cases h : (newPaths isGit existing inputs).isEmpty <;> simp [usesTempReplace]
  · intro h
    simp [add_repos_trace, h]

/-- Witness for C7's amended claim: adding `/a` to an empty registry opens the
persisted file directly and writes `/a`. -/
theorem claim_C7_amended_witness :
    (newPaths (fun _ => true) [] [["a"]]).isEmpty = false ∧
    usesTempReplace (add_repos_trace (fun _ => true) [] [["a"]]) repoPathFile = false ∧
    add_repos_trace (fun _ => true) [] [["a"]] =
      [FileOp.openW repoPathFile, FileOp.write "/a"] :=
  ⟨by decide, (claim_C7_amended (fun _ => true) [] [["a"]]).1,
    ((claim_C7_amended (fun _ => true) [] [["a"]]).2 (by decide)).trans (by decide)⟩

/-! ## Registry `remove` (C6)

`f_rm` and the `rm` sub-command's argument validation are in
`gita/__main__.py` (the `utils.get_repos` load it relies on is modelled
above).  The persisted file is `none` when absent. -/

/-- The persisted registry file: `none` when the file does not exist,
otherwise the ordered list of stored paths. -/
abbrev PathFile := Option (List FsPath)

/-- Removal of the entry with the given key from an association list, as
`del repos[name]` does on the loaded registry dict. -/
def eraseKey (name : RName) : List (RName × FsPath) → List (RName × FsPath)
  | [] => []
  | e :: rest => if e.1 = name then rest else e :: eraseKey name rest

/-- The `f_rm` handler of `gita/__main__.py`: with no persisted file it does
nothing; otherwise it loads the registry, deletes the entry by name — a
`KeyError` escapes before any write when the name is unknown — and only then
rewrites the persisted file with the remaining paths. -/
def f_rm (name : RName) (file : PathFile) : Except String Unit × PathFile :=
  match file with
  | none => (Except.ok (), none)
  | some paths =>
    let repos := get_repos paths
    if name ∈ repos.map Prod.fst then
      (Except.ok (), some ((eraseKey name repos).map Prod.snd))
    else
      (Except.error "KeyError", some paths)

/-- The `rm` sub-command: `p_rm` declares `choices=utils.get_repos()`, so
argparse rejects any name that is not a loaded registry key before `f_rm`
runs; a missing persisted file loads as the empty registry. -/
def rm_main (name : RName) (file : PathFile) : Except String Unit × PathFile :=
  if name ∈ (get_repos (file.getD [])).map Prod.fst then f_rm name file
  else (Except.error "invalid choice", file)

/-- C6: removing a name that is not in the loaded registry fails with an
error and leaves the persisted registry file unmodified. -/
theorem claim_C6 (name : RName) (file : PathFile)
    (h : name ∉ (get_repos (file.getD [])).map Prod.fst) :
    rm_main name file = (Except.error "invalid choice", file) := by
  simp [rm_main, h]

/-- Witness for C6: removing the unregistered name `zzz` from a registry
holding `/a/r` errors and leaves the file as it was. -/
theorem claim_C6_witness :
    ["zzz"] ∉ (get_repos ((some [["a", "r"]] : PathFile).getD [])).map Prod.fst ∧
    rm_main ["zzz"] (some [["a", "r"]]) =
      (Except.error "invalid choice", some [["a", "r"]]) :=
  ⟨by decide, claim_C6 ["zzz"] (some [["a", "r"]]) (by decide)⟩

/-- Sanity: removing a registered name does rewrite the file without that
entry (the non-error branch of `f_rm`). -/
theorem f_rm_known_name_eval :
    rm_main ["r"] (some [["a", "r"], ["b", "s"]]) =
      (Except.ok (), some [["b", "s"]]) := by
  rfl

/-! ## Repo Inspector and Aggregator (C1, C8, C9)

`utils.describe` and its sub-queries (`get_head`, `run_quiet_diff`,
`has_untracked`, `get_commit_msg`) are missing from the sources; they are
modelled from §§4.2–4.3 of the spec, with the rendered row format pinned by
the expected strings of `test_describe`. -/

/-- The observable per-repository state the inspector's sub-queries read:
current head name, the two quiet-diff answers (working tree and staged), the
untracked-files answer, and the commit list (most recent first). -/
structure RepoState where
  head : String
  dirty : Bool
  staged : Bool
  untracked : Bool
  commits : List String
deriving DecidableEq

/-- The Repo Status Snapshot of §3, one per repository per invocation. -/
structure Snapshot where
  name : String
  head : String
  dirty : Bool
  staged : Bool
  untracked : Bool
  msg : String
deriving DecidableEq

/-- Modelled from the spec: `utils.get_commit_msg` — the most recent commit's
message, "empty string if the repository has no commits yet — this must not
throw" (§4.2). -/
def get_commit_msg (st : RepoState) : String :=
  st.commits.headD ""

/-- Modelled from the spec: the Repo Inspector's `inspect` (§4.2) — one
structured snapshot per (name, repository state) pair, each sub-query
tolerant of its own failure. -/
def inspect (e : String × RepoState) : Snapshot :=
  ⟨e.1, e.2.head, e.2.dirty, e.2.staged, e.2.untracked, get_commit_msg e.2⟩

/-- The dirty marker of the rendered row (`*` in `test_describe`). -/
def dirtyMark (s : Snapshot) : String := if s.dirty then "*" else ""

/-- The staged marker of the rendered row (`+` in `test_describe`). -/
def stagedMark (s : Snapshot) : String := if s.staged then "+" else ""

/-- The status glyphs appended to the branch field: dirty, staged, then the
untracked marker `_` (pinned by `test_describe`: `repo *+_` and `repo _`). -/
def statusSymbols (s : Snapshot) : String :=
  dirtyMark s ++ stagedMark s ++ (if s.untracked then "_" else "")

/-- Left-justification of a field to the given width. -/
def padRight (s : String) (w : Nat) : String :=
  s ++ String.mk (List.replicate (w - s.length) ' ')

/-- ANSI color prefix for a dirty working tree (`test_describe`). -/
def colorRed : String := "\x1b[31m"

/-- ANSI color prefix for a clean working tree (`test_describe`). -/
def colorGreen : String := "\x1b[32m"

/-- ANSI color reset (`test_describe`). -/
def colorEnd : String := "\x1b[0m"

/-- The per-batch name-column width of §4.3, computed from the maximum name
width of the current batch (plus one separating space, per the expected
strings of `test_describe`). -/
def nameWidth (batch : List (String × RepoState)) : Nat :=
  (batch.map (fun e => e.1.length)).foldr max 0 + 1

/-- One rendered report line: padded name, color-coded branch plus status
glyphs in a fixed five-column field, color reset, then the last commit
message — the row format pinned by `test_describe`. -/
def renderRow (w : Nat) (s : Snapshot) : String :=
  padRight s.name w ++ (if s.dirty then colorRed else colorGreen) ++
    s.head ++ " " ++ padRight (statusSymbols s) 5 ++ colorEnd ++ " " ++ s.msg

/-- Modelled from the spec: `utils.describe`, the Aggregator's `summarize`
(§4.3) — one rendered line per repository, in the registry's iteration
order. -/
def describe (batch : List (String × RepoState)) : List String :=
  batch.map (fun e => renderRow (nameWidth batch) (inspect e))

/-- Sanity: the two parametrized cases of `test_describe` render exactly the
expected strings. -/
theorem describe_test_fixture :
    describe [("abc", ⟨"repo", true, true, true, ["msg"]⟩)] =
      ["abc \x1b[31mrepo *+_  \x1b[0m msg"] ∧
    describe [("repo", ⟨"repo", false, false, true, ["msg"]⟩)] =
      ["repo \x1b[32mrepo _    \x1b[0m msg"] := by
  constructor <;> rfl

/-- A pre-allocated, index-addressed slot store for fan-in results (§5). -/
def writeSlot (slots : Nat → Option Snapshot) (target : Nat) (v : Option Snapshot) :
    Nat → Option Snapshot :=
  fun j => if j = target then v else slots j

/-- Modelled from the spec (§5): run the per-repository inspector tasks in the
given completion order; each task owns its input index and writes its snapshot
into its own disjoint slot. -/
def runTasks (batch : List (String × RepoState)) :
    List Nat → (Nat → Option Snapshot) → (Nat → Option Snapshot)
  | [], slots => slots
  | i :: rest, slots => runTasks batch rest (writeSlot slots i (batch[i]?.map inspect))

/-- Modelled from the spec (§§4.3, 5): summarize as the required fan-out /
fan-in — dispatch one inspector task per repository, let the tasks complete
in an arbitrary order `sched`, merge into the slot store only after all
complete, then render in input (index) order. -/
def describeSched (batch : List (String × RepoState)) (sched : List Nat) : List String :=
  (List.range batch.length).map (fun i =>
    match runTasks batch sched (fun _ => none) i with
    | some s => renderRow (nameWidth batch) s
    | none => "")

theorem runTasks_eval (batch : List (String × RepoState)) (sched : List Nat) :
    ∀ (slots : Nat → Option Snapshot) (i : Nat),
      runTasks batch sched slots i =
        if i ∈ sched then batch[i]?.map inspect else slots i := by
  induction sched with
  | nil => intro slots i; simp [runTasks]
  | cons j rest ih =>
    intro slots i
    simp only [runTasks]
    rw [ih]
    by_cases hir : i ∈ rest
    · simp [hir, List.mem_cons]
    · by_cases hij : i = j
      · subst hij
        simp [hir, writeSlot, List.mem_cons]
      · simp [hir, hij, writeSlot, List.mem_cons]

/-- C1: the summarize fan-out/fan-in produces exactly one rendered line per
registry entry, in the registry's input order — identical to the sequential
rendering `describe` — under every completion order that covers the batch, so
per-repository latency and completion order are not observable in the
output. -/
theorem claim_C1 (batch : List (String × RepoState)) (sched : List Nat)
    (hcov : ∀ i, i < batch.length → i ∈ sched) :
    describeSched batch sched = describe batch ∧
    (describeSched batch sched).length = batch.length ∧
    ∀ i (h : i < batch.length),
      (describeSched batch sched)[i]? =
        some (renderRow (nameWidth batch) (inspect batch[i])) := by
  have hmain : describeSched batch sched = describe batch := by
    apply List.ext_getElem?
    intro i
    simp only [describeSched, describe, List.getElem?_map]
    by_cases hi : i < batch.length
    · rw [List.getElem?_range hi, List.getElem?_eq_getElem hi]
      simp only [Option.map_some']
      rw [runTasks_eval batch sched _ i, if_pos (hcov i hi),
        List.getElem?_eq_getElem hi]
      rfl
    · rw [List.getElem?_eq_none (by simpa using Nat.le_of_not_lt hi),
        List.getElem?_eq_none (by exact Nat.le_of_not_lt hi)]
      rfl
  refine ⟨hmain, ?_, ?_⟩
  · simp [describeSched]
  · intro i h
    rw [hmain]
    simp only [describe, List.getElem?_map]
    rw [List.getElem?_eq_getElem h]
    rfl

/-- A two-repository batch: a clean repo with one commit and a dirty,
untracked repo with no commits. -/
def sampleBatch : List (String × RepoState) :=
  [("repo1", ⟨"m", false, false, false, ["first"]⟩),
   ("repo2", ⟨"dev", true, false, true, []⟩)]

/-- Witness for C1: with completion order reversed (`repo2` finishes first),
the report is still rendered in input order. -/
theorem claim_C1_witness :
    (∀ i, i < sampleBatch.length → i ∈ [1, 0]) ∧
    (describeSched sampleBatch [1, 0] = describe sampleBatch ∧
      (describeSched sampleBatch [1, 0]).length = sampleBatch.length ∧
      ∀ i (h : i < sampleBatch.length),
        (describeSched sampleBatch [1, 0])[i]? =
          some (renderRow (nameWidth sampleBatch) (inspect sampleBatch[i]))) :=
  ⟨by decide, claim_C1 sampleBatch [1, 0] (by decide)⟩

/-- C8: whenever a snapshot records untracked files, the rendered row carries
the untracked marker `_` appended to the end of the status glyphs, whatever
the dirty/staged state of the working tree. -/
theorem claim_C8 (w : Nat) (s : Snapshot) (hu : s.untracked = true) :
    statusSymbols s = (dirtyMark s ++ stagedMark s) ++ "_" ∧
    ∃ a b, renderRow w s = a ++ ("_" ++ b) := by
  have hsym : statusSymbols s = (dirtyMark s ++ stagedMark s) ++ "_" := by
    simp [statusSymbols, hu, String.append_assoc]
  refine ⟨hsym, ?_⟩
  refine ⟨padRight s.name w ++ ((if s.dirty then colorRed else colorGreen) ++
      (s.head ++ (" " ++ (dirtyMark s ++ stagedMark s)))),
    String.mk (List.replicate (5 - (statusSymbols s).length) ' ') ++
      (colorEnd ++ (" " ++ s.msg)), ?_⟩
  simp only [renderRow, padRight, hsym]
  simp [String.append_assoc]

/-- The clean-but-untracked snapshot of `test_describe`'s second case. -/
def untrackedSnap : Snapshot := ⟨"repo", "repo", false, false, true, "msg"⟩

/-- Witness for C8 at `test_describe`'s second case: a clean working tree
still renders the `_` marker, and the full row matches the test's expected
string. -/
theorem claim_C8_witness :
    untrackedSnap.untracked = true ∧
    (statusSymbols untrackedSnap =
        (dirtyMark untrackedSnap ++ stagedMark untrackedSnap) ++ "_" ∧
      ∃ a b, renderRow 5 untrackedSnap = a ++ ("_" ++ b)) ∧
    renderRow 5 untrackedSnap = "repo \x1b[32mrepo _    \x1b[0m msg" :=
  ⟨rfl, claim_C8 5 untrackedSnap rfl, rfl⟩

/-- A repository state with exactly one commit. -/
def committedState : RepoState := ⟨"h", false, false, false, ["m"]⟩

/-- A repository state with no commits at all. -/
def zeroCommitState : RepoState := ⟨"h", false, false, false, []⟩

/-- C9 as stated is false at a concrete input: the zero-commit repository
yields the empty message rather than an error, but adding it to a batch under
a longer name re-pads the name column (per-batch width, §4.3) and so does
change the other repository's rendered row. -/
theorem claim_C9_counterexample :
    get_commit_msg zeroCommitState = "" ∧
    (describe [("a", committedState), ("longname", zeroCommitState)])[0]? ≠
      (describe [("a", committedState)])[0]? := by
  constructor
  · rfl
  · decide

/-- C9 amended: a zero-commit repository yields an empty last-commit-message
field instead of an error, and its zero-commit state does not change the
rendered rows of the other repositories — emptying the commit list of the
repository at any batch position leaves every other row unchanged.  (Its mere
presence in the batch can change other rows only through the shared
name-column width, which depends on the names alone, per §4.3.) -/
theorem claim_C9_amended (pre post : List (String × RepoState)) (name : String)
    (st : RepoState) :
    (inspect (name, { st with commits := [] })).msg = "" ∧
    (describe (pre ++ (name, { st with commits := [] }) :: post)).length =
      (describe (pre ++ (name, st) :: post)).length ∧
    ∀ j, j ≠ pre.length →
      (describe (pre ++ (name, { st with commits := [] }) :: post))[j]? =
        (describe (pre ++ (name, st) :: post))[j]? := by
  have hw : nameWidth (pre ++ (name, { st with commits := [] }) :: post) =
      nameWidth (pre ++ (name, st) :: post) := by
    simp [nameWidth]
  refine ⟨rfl, by simp [describe], ?_⟩
  intro j hj
  simp only [describe, List.getElem?_map, hw]
  rcases Nat.lt_trichotomy j pre.length with hlt | heq | hgt
  · rw [List.getElem?_append, List.getElem?_append, if_pos hlt, if_pos hlt]
  · exact absurd heq hj
  · rw [List.getElem?_append, List.getElem?_append, if_neg (by omega), if_neg (by omega)]
    have h2 : j - pre.length = (j - pre.length - 1) + 1 := by omega
    rw [h2]
    simp

/-- Witness for C9's amended claim on a concrete two-repository batch, with
the inner row-preservation hypothesis shown satisfiable at index 0. -/
theorem claim_C9_amended_witness :
    ((inspect ("b", { committedState with commits := [] })).msg = "" ∧
      (describe ([("a", committedState)] ++
          ("b", { committedState with commits := [] }) :: [])).length =
        (describe ([("a", committedState)] ++ ("b", committedState) :: [])).length ∧
      ∀ j, j ≠ [("a", committedState)].length →
        (describe ([("a", committedState)] ++
            ("b", { committedState with commits := [] }) :: []))[j]? =
          (describe ([("a", committedState)] ++ ("b", committedState) :: []))[j]?) ∧
    (0 : Nat) ≠ [("a", committedState)].length :=
  ⟨claim_C9_amended [("a", committedState)] [] "b" committedState, by decide⟩

/-! ## Command Dispatcher (C2, C3) and super mode (C10)

`f_git_cmd` and `f_super` are in `gita/__main__.py`; the underlying
`utils.exec_git_async` / `run_command` pair is missing from the sources and
is modelled from §§4.4–5 of the spec as pinned by `test_exec_git_async`. -/

/-- One delegated external-command execution: the working directory it runs
in and the full argument vector. -/
structure Invocation where
  cwd : String
  cmd : List String
deriving DecidableEq

/-- Modelled from the spec: `utils.exec_git_async` — one `run_command` task
per selected repository path, each invoking `['git'] + cmds` with that path
as working directory (`test_exec_git_async` asserts exactly these calls). -/
def exec_git_async (paths : List String) (cmds : List String) : List Invocation :=
  paths.map (fun p => ⟨p, "git" :: cmds⟩)

/-- Modelled from the spec (§§4.4, 5): the inspector calls the Aggregator
issues, observed in an arbitrary completion order over the task indices. -/
def inspectCalls (batch : List (String × RepoState)) (sched : List Nat) :
    List Snapshot :=
  sched.filterMap (fun i => (batch[i]?).map inspect)

/-- Modelled from the spec (§§4.4, 5): the dispatcher's execution events
under an arbitrary completion order `sched` over the task indices — each
task's invocation appears when it completes, unbuffered and unreordered. -/
def dispatchEvents (paths cmds : List String) (sched : List Nat) :
    List Invocation :=
  sched.filterMap (fun i => (exec_git_async paths cmds)[i]?)

theorem range_filterMap_getElem {α : Type} (l : List α) :
    (List.range l.length).filterMap (fun i => l[i]?) = l := by
  induction l with
  | nil => simp
  | cons a rest ih =>
    rw [List.length_cons, List.range_succ_eq_map]
    simp [List.filterMap_map, Function.comp_def, ih]

/-- C2: the Aggregator issues exactly one inspector call per repository and
the dispatcher exactly one execution per repository; under every completion
order (any permutation of the task indices) the collection of inspector calls
and the collection of execution events are the same up to interleaving, so no
execution is conditioned on — serialized after — another's completion. -/
theorem claim_C2 (batch : List (String × RepoState)) (paths cmds : List String)
    (s1 s2 : List Nat)
    (h1 : s1.Perm (List.range batch.length))
    (h2 : s2.Perm (List.range paths.length)) :
    (inspectCalls batch s1).Perm (batch.map inspect) ∧
    (exec_git_async paths cmds).length = paths.length ∧
    (∀ i (h : i < paths.length),
      (exec_git_async paths cmds)[i]? = some ⟨paths[i], "git" :: cmds⟩) ∧
    (dispatchEvents paths cmds s2).Perm (exec_git_async paths cmds) := by
  refine ⟨?_, by simp [exec_git_async], ?_, ?_⟩
  · have key : (List.range batch.length).filterMap
        (fun i => (batch[i]?).map inspect) = batch.map inspect := by
      have h := range_filterMap_getElem (batch.map inspect)
      simpa [List.getElem?_map] using h
    exact key ▸ h1.filterMap (fun i => (batch[i]?).map inspect)
  · intro i h
    simp [exec_git_async, List.getElem?_map, List.getElem?_eq_getElem h]
  · have key : (List.range paths.length).filterMap
        (fun i => (exec_git_async paths cmds)[i]?) = exec_git_async paths cmds := by
      have h := range_filterMap_getElem (exec_git_async paths cmds)
      simpa [exec_git_async] using h
    exact key ▸ h2.filterMap (fun i => (exec_git_async paths cmds)[i]?)

/-- The two paths of `test_exec_git_async`. -/
def samplePaths : List String := ["/a/b/repo1", "/c/d/repo2"]

/-- Witness for C2 at the `test_exec_git_async` fixture, with both completion
orders reversed. -/
theorem claim_C2_witness :
    ([1, 0].Perm (List.range sampleBatch.length) ∧
      [1, 0].Perm (List.range samplePaths.length)) ∧
    ((inspectCalls sampleBatch [1, 0]).Perm (sampleBatch.map inspect) ∧
      (exec_git_async samplePaths ["git-subcommand", "something"]).length =
        samplePaths.length ∧
      (∀ i (h : i < samplePaths.length),
        (exec_git_async samplePaths ["git-subcommand", "something"])[i]? =
          some ⟨samplePaths[i], "git" :: ["git-subcommand", "something"]⟩) ∧
      (dispatchEvents samplePaths ["git-subcommand", "something"] [1, 0]).Perm
        (exec_git_async samplePaths ["git-subcommand", "something"])) :=
  ⟨⟨by decide, by decide⟩,
    claim_C2 sampleBatch samplePaths ["git-subcommand", "something"] [1, 0] [1, 0]
      (by decide) (by decide)⟩

/-- The dispatcher's executions together with each one's outcome, the latter
given by an oracle from working directory to exit success; outcomes are pure
side observations of each independent execution (§4.4: no fail-fast, no
aggregation). -/
def run_dispatch (repos : List (String × String)) (cmds : List String)
    (oracle : String → Bool) : List (Invocation × Bool) :=
  (exec_git_async (repos.map Prod.snd) cmds).map (fun t => (t, oracle t.cwd))

/-- C3: dispatching a command to N selected repositories invokes it exactly N
times, once per repository, with working directory that repository's path;
the invocation list does not depend on the outcomes at all, and changing one
repository's outcome leaves every sibling execution's entry unchanged. -/
theorem claim_C3 (repos : List (String × String)) (cmds : List String)
    (oracle oracle2 : String → Bool) :
    (run_dispatch repos cmds oracle).length = repos.length ∧
    (∀ i (h : i < repos.length),
      (run_dispatch repos cmds oracle)[i]? =
        some (⟨repos[i].2, "git" :: cmds⟩, oracle (repos[i].2))) ∧
    (run_dispatch repos cmds oracle).map Prod.fst =
      exec_git_async (repos.map Prod.snd) cmds ∧
    ∀ p : String, (∀ q, q ≠ p → oracle q = oracle2 q) →
      ∀ i (h : i < repos.length), repos[i].2 ≠ p →
        (run_dispatch repos cmds oracle)[i]? =
          (run_dispatch repos cmds oracle2)[i]? := by
  refine ⟨by simp [run_dispatch, exec_git_async], ?_, ?_, ?_⟩
  · intro i h
    simp [run_dispatch, exec_git_async, List.getElem?_map, List.getElem?_eq_getElem h]
  · simp [run_dispatch, exec_git_async]
  · intro p hor i h hi
    simp only [run_dispatch, exec_git_async, List.map_map, List.getElem?_map,
      List.getElem?_eq_getElem h]
    simp [hor _ hi]

/-- A two-repository selection, as in `test_exec_git_async`. -/
def sampleRepos : List (String × String) :=
  [("repo1", "/a/b/repo1"), ("repo2", "/c/d/repo2")]

/-- An outcome oracle under which the first repository's execution fails. -/
def failFirst : String → Bool := fun q => !(q == "/a/b/repo1")

/-- An outcome oracle under which every execution succeeds. -/
def allOk : String → Bool := fun _ => true

/-- Witness for C3: two repositories, the first execution failing; the second
repository's entry is identical to the all-successful run. -/
theorem claim_C3_witness :
    (run_dispatch sampleRepos ["fetch"] failFirst).length = sampleRepos.length ∧
    (run_dispatch sampleRepos ["fetch"] failFirst)[1]? =
      (run_dispatch sampleRepos ["fetch"] allOk)[1]? ∧
    (∀ q, q ≠ "/a/b/repo1" → failFirst q = allOk q) ∧
    ("/c/d/repo2" : String) ≠ "/a/b/repo1" := by
  have hloc : ∀ q, q ≠ "/a/b/repo1" → failFirst q = allOk q := by
    intro q hq
    simp [failFirst, allOk, hq]
  refine ⟨(claim_C3 sampleRepos ["fetch"] failFirst allOk).1, ?_, hloc, by decide⟩
  exact (claim_C3 sampleRepos ["fetch"] failFirst allOk).2.2.2 "/a/b/repo1" hloc 1
    (by decide) (by decide)

/-- The collecting loop of `f_super` (`gita/__main__.py`): walk the word list,
collecting words that are registered names until the first word that is not;
`args.cmd` is the word list from the loop's final index on and `args.repo`
the collected names.  When every word is a registered name, the loop runs to
the end without a break and the final index still points at the last word, so
that word ends up both in the collected names and in the delegated command;
the empty word list (where the loop index stays unbound and Python raises) is
handled in `f_super` itself. -/
def fSuperGo (keys : List String) : List String → List String × List String
  | [] => ([], [])
  | [w] => if w ∈ keys then ([w], [w]) else ([], [w])
  | w :: rest =>
    if w ∈ keys then
      ((w :: (fSuperGo keys rest).1), (fSuperGo keys rest).2)
    else ([], w :: rest)

/-- The `f_super` handler of `gita/__main__.py`, returning the
`(args.repo, args.cmd)` pair it hands to `f_git_cmd`; `none` models the
unbound-loop-variable error on an empty `args.man`. -/
def f_super (keys : List String) (man : List String) :
    Option (List String × List String) :=
  if man.isEmpty then none else some (fSuperGo keys man)

/-- Assoc lookup of a registered name, as `repos[k]` on the loaded dict. -/
def lookupRepo (repos : List (String × String)) (k : String) : Option String :=
  match repos with
  | [] => none
  | e :: rest => if e.1 = k then some e.2 else lookupRepo rest k

/-- The repository selection of `f_git_cmd` (`gita/__main__.py`): an empty
`args.repo` keeps every registered repository; otherwise the dict
comprehension keeps the named entries (first-occurrence order, duplicate
names collapsed), failing (`KeyError`, modelled as `none`) if a name is not
registered. -/
def selectRepos (repos : List (String × String)) (names : List String) :
    Option (List (String × String)) :=
  if names.isEmpty then some repos
  else names.dedup.mapM (fun k => (lookupRepo repos k).map (fun p => (k, p)))

/-- The `f_git_cmd` handler of `gita/__main__.py`: select the repositories,
then execute the delegated git command once per selected repository. -/
def f_git_cmd (repos : List (String × String)) (names cmds : List String) :
    Option (List Invocation) :=
  (selectRepos repos names).map (fun sel => exec_git_async (sel.map Prod.snd) cmds)

/-- Sanity: a registered prefix followed by command words splits as
prefix/remainder. -/
theorem f_super_prefix_eval :
    f_super ["r1", "r2"] ["r1", "push", "--force"] =
      some (["r1"], ["push", "--force"]) := by
  decide

/-- Sanity: when every word of `args.man` is a registered name, the last word
is both collected as a repository and delegated as the command — the
final-index quirk of the loop. -/
theorem f_super_all_names_eval :
    f_super ["r1", "r2"] ["r1", "r2"] = some (["r1", "r2"], ["r2"]) := by
  decide

theorem fSuperGo_eq (keys : List String) (man : List String)
    (hx : ∃ w ∈ man, w ∉ keys) :
    fSuperGo keys man =
      (man.take (man.findIdx (fun w => decide (w ∉ keys))),
       man.drop (man.findIdx (fun w => decide (w ∉ keys)))) := by
  induction man with
  | nil => simp at hx
  | cons w rest ih =>
    cases rest with
    | nil =>
      rcases hx with ⟨v, hv, hnv⟩
      have hvw : v = w := by simpa using hv
      subst hvw
      simp [fSuperGo, hnv, List.findIdx_cons]
    | cons r rs =>
      by_cases hw : w ∈ keys
      · have hx2 : ∃ v ∈ r :: rs, v ∉ keys := by
          rcases hx with ⟨v, hv, hnv⟩
          rcases List.mem_cons.mp hv with h1 | h2
          · subst h1; exact absurd hw hnv
          · exact ⟨v, h2, hnv⟩
        have ih2 := ih hx2
        simp only [fSuperGo, if_pos hw, ih2, List.findIdx_cons]
        simp [hw]
      · simp [fSuperGo, hw, List.findIdx_cons]

/-- C10: for a non-empty `super` word list containing at least one word that
is not a registered name, `f_super` selects exactly the maximal leading
prefix of registered names as the repository set and delegates the words
from the first non-registered word on as the git command; and when that
prefix is empty, `f_git_cmd` dispatches the command to every registered
repository. -/
theorem claim_C10 (repos : List (String × String)) (man : List String)
    (hne : man ≠ [])
    (hx : ∃ w ∈ man, w ∉ repos.map Prod.fst) :
    f_super (repos.map Prod.fst) man =
      some (man.take (man.findIdx (fun w => decide (w ∉ repos.map Prod.fst))),
            man.drop (man.findIdx (fun w => decide (w ∉ repos.map Prod.fst)))) ∧
    (man.findIdx (fun w => decide (w ∉ repos.map Prod.fst)) = 0 →
      f_git_cmd repos
          (man.take (man.findIdx (fun w => decide (w ∉ repos.map Prod.fst))))
          (man.drop (man.findIdx (fun w => decide (w ∉ repos.map Prod.fst)))) =
        some (exec_git_async (repos.map Prod.snd)
          (man.drop (man.findIdx (fun w => decide (w ∉ repos.map Prod.fst)))))) := by
  constructor
  · rw [f_super, if_neg (by simpa [List.isEmpty_iff] using hne)]
    rw [fSuperGo_eq _ _ hx]
  · intro h0
    rw [h0]
    simp [f_git_cmd, selectRepos]

/-- Witness for C10: `super fetch --all` with no leading repository names runs
the command in every registered repository. -/
theorem claim_C10_witness :
    ((["fetch", "--all"] : List String) ≠ [] ∧
      (∃ w ∈ ["fetch", "--all"], w ∉ sampleRepos.map Prod.fst) ∧
      (["fetch", "--all"] : List String).findIdx
        (fun w => decide (w ∉ sampleRepos.map Prod.fst)) = 0) ∧
    (f_super (sampleRepos.map Prod.fst) ["fetch", "--all"] =
        some ((["fetch", "--all"] : List String).take 0,
          (["fetch", "--all"] : List String).drop 0) ∧
      f_git_cmd sampleRepos
          ((["fetch", "--all"] : List String).take 0)
          ((["fetch", "--all"] : List String).drop 0) =
        some (exec_git_async (sampleRepos.map Prod.snd)
          ((["fetch", "--all"] : List String).drop 0))) := by
  have h := claim_C10 sampleRepos ["fetch", "--all"] (by decide) (by decide)
  have h0 : (["fetch", "--all"] : List String).findIdx
      (fun w => decide (w ∉ sampleRepos.map Prod.fst)) = 0 := by decide
  refine ⟨⟨by decide, by decide, h0⟩, ?_, ?_⟩
  · have := h.1
    rw [h0] at this
    exact this
  · have := h.2 h0
    rw [h0] at this
    exact this

end Gita

